import Mathlib

/-!
Verification of the `flu` terminal-styling library.

The source (src/src/internal/constants.ts, core.ts and the utils module
embedded in core.ts) is shallowly embedded here.  JavaScript strings are
modelled as `List Char`; the registry `Record`s are modelled as functions
`String → Option _` updated by `insertRec` (own-property assignment;
prototype-chain lookups of never-registered names are not modelled —
no claim quantifies over them).  `String.prototype.replace` with a
`new RegExp(escapeRegExp(pat), "g")` pattern matches the pattern
literally (every metacharacter is escaped), while its replacement
string undergoes the ECMA-262 GetSubstitution processing of the dollar
escape sequences, modelled by `jsSubst` for the no-capture-group
regexes the code builds.
-/

set_option autoImplicit false

deriving instance DecidableEq for Except

namespace Flu

/-- constants.ts: `ESC = "\u001B["`, the ANSI escape introducer. -/
def ESC : List Char := ['\x1B', '[']

/-- constants.ts: `code = (n) => ESC + n + "m"`, an SGR sequence. -/
def code (n : Nat) : List Char := ESC ++ (toString n).data ++ ['m']

/-- constants.ts: `FG_BASE = 30`. -/
def FG_BASE : Nat := 30
/-- constants.ts: `BG_BASE = 40`. -/
def BG_BASE : Nat := 40
/-- constants.ts: `FG_BRIGHT_BASE = 90`. -/
def FG_BRIGHT_BASE : Nat := 90
/-- constants.ts: `BG_BRIGHT_BASE = 100`. -/
def BG_BRIGHT_BASE : Nat := 100
/-- constants.ts: `FG_CLOSE = code(39)`. -/
def FG_CLOSE : List Char := code 39
/-- constants.ts: `BG_CLOSE = code(49)`. -/
def BG_CLOSE : List Char := code 49

/-- constants.ts: the ordered list of the 8 standard ANSI colors. -/
def BASE_COLORS : List String :=
  ["black", "red", "green", "yellow", "blue", "magenta", "cyan", "white"]

/-- utils: `type Style = { open: string; close: string }`. -/
structure Style where
  «open» : List Char
  close : List Char
  deriving DecidableEq, Repr

/-- utils: `capitalize(s) = s.charAt(0).toUpperCase() + s.slice(1)`. -/
def capitalize (s : String) : String :=
  match s.data with
  | [] => ""
  | c :: cs => ⟨Char.toUpper c :: cs⟩

/-- ECMA-262 GetSubstitution for a replacement string against a regex
with no capture groups: a dollar sign followed by a second dollar sign
yields one dollar sign, followed by an ampersand yields the matched
text, followed by a backquote (code 96) yields the portion of the
original input before the match, followed by a single quote (code 39)
yields the portion after the match; any other dollar sequence (digits
included, since the pattern has no capture groups) is taken literally,
as is a lone trailing dollar sign. -/
def jsSubst (matched before after : List Char) : List Char → List Char
  | [] => []
  | [c] => [c]
  | c :: c₂ :: rest =>
    if c = '$' then
      if c₂ = '$' then '$' :: jsSubst matched before after rest
      else if c₂ = '&' then matched ++ jsSubst matched before after rest
      else if c₂ = Char.ofNat 96 then before ++ jsSubst matched before after rest
      else if c₂ = Char.ofNat 39 then after ++ jsSubst matched before after rest
      else '$' :: jsSubst matched before after (c₂ :: rest)
    else c :: jsSubst matched before after (c₂ :: rest)

/-- The global replacement scan of
`out.replace(new RegExp(escapeRegExp(pat), "g"), rep)` for a non-empty
pattern: a left-to-right scan replacing each non-overlapping occurrence
of `pat` by the `jsSubst`-processed `rep` (`escapeRegExp` makes the
pattern itself fully literal).  `orig` is the whole original input and
the second `Nat` argument the current index into it, supplying the
before/after portions of each match's substitution; the first `Nat`
argument is recursion fuel, sufficient whenever it is at least the
scanned list's length. -/
def replaceGoJs (orig pat rep : List Char) : Nat → Nat → List Char → List Char
  | _, _, [] => []
  | 0, _, s => s
  | n + 1, i, c :: cs =>
    if (c :: cs).take pat.length = pat then
      jsSubst pat (orig.take i) (orig.drop (i + pat.length)) rep ++
        replaceGoJs orig pat rep n (i + pat.length) ((c :: cs).drop pat.length)
    else
      c :: replaceGoJs orig pat rep n (i + 1) cs

/-- The empty-pattern (empty regex) global replacement: a match at
every index of the input and one more after its last character, each
replaced by the substituted `rep`, keeping the characters in between. -/
def replaceEmptyPat (orig rep : List Char) : Nat → List Char → List Char
  | i, [] => jsSubst [] (orig.take i) (orig.drop i) rep
  | i, c :: cs =>
    jsSubst [] (orig.take i) (orig.drop i) rep ++
      c :: replaceEmptyPat orig rep (i + 1) cs

/-- utils: `out.replace(new RegExp(escapeRegExp(pat), "g"), rep)`, the
pattern matched literally and the replacement string interpreted by
`jsSubst`. -/
def replaceAll (pat rep s : List Char) : List Char :=
  if pat = [] then replaceEmptyPat s rep 0 s
  else replaceGoJs s pat rep s.length 0 s

/-- The literal-replacement scan: the same left-to-right
non-overlapping scan as `replaceGoJs`, inserting `rep` itself at each
match.  It coincides with `replaceGoJs` whenever `rep` contains no
dollar sign (`replaceGoJs_eq_replaceGo`). -/
def replaceGo (pat rep : List Char) : Nat → List Char → List Char
  | _, [] => []
  | 0, s => s
  | n + 1, c :: cs =>
    if (c :: cs).take pat.length = pat then
      rep ++ replaceGo pat rep n ((c :: cs).drop pat.length)
    else
      c :: replaceGo pat rep n cs

/-- The body of the `for (const s of styles)` loop of `applyStyles`:
`out = s.open + out.replace(close-pattern, s.close + s.open) + s.close`. -/
def applyOne (out : List Char) (s : Style) : List Char :=
  s.«open» ++ replaceAll s.close (s.close ++ s.«open») out ++ s.close

/-- utils: `applyStyles(text, styles)` — returns `text` unchanged when
either the style list or the text is empty, otherwise folds the styles
in order, each wrapping (and close-reopening) the accumulated output. -/
def applyStyles (text : List Char) (styles : List Style) : List Char :=
  if styles = [] ∨ text = [] then text
  else styles.foldl applyOne text

/-- utils: `joinArgs(args) = args.map(String).join(" ")`; the arguments
are modelled already coerced to their display strings. -/
def joinArgsJoin (sep : List Char) : List (List Char) → List Char
  | [] => []
  | [b] => b
  | b :: bs => b ++ sep ++ joinArgsJoin sep bs

/-- utils: `joinArgs` — space-join of the stringified call arguments. -/
def joinArgs (args : List (List Char)) : List Char := joinArgsJoin [' '] args

/-- The split of `s` induced by the left-to-right non-overlapping scan
for `pat` (same scan as `replaceGo`): `s` is the chunks joined with
`pat`, and the replacement result is the chunks joined with the
replacement.  Fueled like `replaceGo`. -/
def splitGo (pat : List Char) : Nat → List Char → List (List Char)
  | _, [] => [[]]
  | 0, s => [s]
  | n + 1, c :: cs =>
    if (c :: cs).take pat.length = pat then
      [] :: splitGo pat n ((c :: cs).drop pat.length)
    else
      match splitGo pat n cs with
      | [] => [[c]]
      | b :: bs => (c :: b) :: bs

/-- The scan split of `s` on a non-empty pattern `pat`. -/
def splitScan (pat s : List Char) : List (List Char) :=
  if pat = [] then [s] else splitGo pat s.length s

/-- `joinWith sep [b₀, …, bₖ] = b₀ ++ sep ++ … ++ sep ++ bₖ`. -/
def joinWith (sep : List Char) : List (List Char) → List Char
  | [] => []
  | [b] => b
  | b :: bs => b ++ sep ++ joinWith sep bs

/-- The fully rendered shape of `applyStyles` when no close sequence
interferes: the opens of the chained styles in reverse chain order,
then the text, then the closes in chain order. -/
def styledShape (text : List Char) (styles : List Style) : List Char :=
  (styles.reverse.map (fun s => s.«open»)).flatten ++ text ++
    (styles.map (fun s => s.close)).flatten

/-- Every occurrence of the close sequence `cl` in `m` is followed, in
the rest of `m` after it, by an occurrence of the open sequence `op`
(the "reopen" property of a rendered middle). -/
def closesReopened (cl op m : List Char) : Prop :=
  ∀ i, i < m.length → (m.drop i).take cl.length = cl →
    op <:+: m.drop (i + cl.length)

instance (cl op m : List Char) : Decidable (closesReopened cl op m) := by
  unfold closesReopened
  infer_instance

/-- The characters removed by `String.prototype.trim` (the ASCII
whitespace and line terminators, plus NBSP, BOM and the common Unicode
spaces; only ASCII whitespace is exercised by any claim). -/
def jsWhitespace (c : Char) : Bool :=
  c ∈ [' ', '\t', '\n', '\r', '\x0B', '\x0C', ' ', '﻿', ' ', ' ']

/-- `hex.trim()`: strip `jsWhitespace` from both ends. -/
def trim (s : List Char) : List Char :=
  ((s.dropWhile jsWhitespace).reverse.dropWhile jsWhitespace).reverse

/-- `.replace(/^#/u, "")`: strip at most one leading `#`. -/
def stripHash : List Char → List Char
  | '#' :: rest => rest
  | s => s

/-- A case-insensitive hexadecimal digit, as tested by `/[^0-9a-f]/i`. -/
def isHexDigit (c : Char) : Bool :=
  ('0' ≤ c && c ≤ '9') || ('a' ≤ c && c ≤ 'f') || ('A' ≤ c && c ≤ 'F')

/-- The value of one hexadecimal digit (`parseInt(·, 16)` digit step). -/
def hexVal (c : Char) : Nat :=
  if '0' ≤ c && c ≤ '9' then c.toNat - '0'.toNat
  else if 'a' ≤ c && c ≤ 'f' then c.toNat - 'a'.toNat + 10
  else c.toNat - 'A'.toNat + 10

/-- `parseInt(h.slice(i, i+2), 16)` on a two-digit slice. -/
def hexByte : List Char → Nat
  | [a, b] => 16 * hexVal a + hexVal b
  | _ => 0

/-- parseHex, step 2: `if (h.length === 3) h = h.split("").map(c => c + c).join("")`
— duplicate each character of a 3-character form. -/
def dupIfShort (t : List Char) : List Char :=
  if t.length = 3 then (t.map (fun c => [c, c])).flatten else t

/-- parseHex, step 3: `if (h.length !== 6 || /[^0-9a-f]/i.test(h)) throw`,
else parse the three byte slices; the thrown error carries the original
input `hex`. -/
def parseHexDigits (hex h : List Char) : Except (List Char) (Nat × Nat × Nat) :=
  if h.length = 6 ∧ h.all isHexDigit then
    .ok (hexByte (h.take 2), hexByte ((h.drop 2).take 2), hexByte (h.drop 4))
  else .error hex

/-- utils: `parseHex(hex)` — trim, strip an optional leading `#`,
duplicate each digit of a 3-character form, then require exactly 6
case-insensitive hex digits; on failure throw an error carrying the
original input (modelled as `Except.error hex`). -/
def parseHex (hex : List Char) : Except (List Char) (Nat × Nat × Nat) :=
  parseHexDigits hex (dupIfShort (stripHash (trim hex)))

/-- The acceptance condition of `parseHex`, phrased on the trimmed,
`#`-stripped input as the spec words it: exactly 3 or 6 case-insensitive
hexadecimal digits. -/
def validHexInput (hex : List Char) : Prop :=
  ((stripHash (trim hex)).length = 3 ∨ (stripHash (trim hex)).length = 6) ∧
    (stripHash (trim hex)).all isHexDigit = true

instance (hex : List Char) : Decidable (validHexInput hex) := by
  unfold validHexInput
  infer_instance

/-- A JavaScript number after `Number(·)` coercion: NaN, an infinity,
or a finite value (modelled as a rational; every double is one). -/
inductive JsNum where
  | nan
  | posInf
  | negInf
  | num (q : ℚ)
  deriving DecidableEq

/-- utils: `clamp255(n)` — `Number(n)`, `NaN ↦ 0`, otherwise
`Math.min(255, Math.max(0, Math.floor(n)))`.  `Math.floor`, `Math.max`
and `Math.min` on the infinities make `+∞ ↦ 255` and `-∞ ↦ 0`. -/
def clamp255 : JsNum → Int
  | .nan => 0
  | .posInf => 255
  | .negInf => 0
  | .num q => min 255 (max 0 q.floor)

/-- utils: `truecolor(openBase, r, g, b)` — clamp each channel and
build the 24-bit SGR open sequence
`ESC + openBase + ";2;" + R + ";" + G + ";" + B + "m"`; the close
resets only the matching channel kind. -/
def truecolor (openBase : Nat) (r g b : JsNum) : Style :=
  let R := (clamp255 r).toNat
  let G := (clamp255 g).toNat
  let B := (clamp255 b).toNat
  { «open» := ESC ++ (toString openBase).data ++ ";2;".data ++
      (toString R).data ++ [';'] ++ (toString G).data ++ [';'] ++
      (toString B).data ++ ['m'],
    close := if openBase = 38 then FG_CLOSE else BG_CLOSE }

/-- An argument passed to a dynamic style factory: a number (already
`Number`-coerced) or a string.  (Passing a string where a factory
expects a number, or vice versa, is not exercised by any claim; such an
argument is treated as `undefined` would be.) -/
inductive JsArg where
  | num (n : JsNum)
  | str (s : List Char)

/-- Numeric factory parameter `i`: a missing argument is `undefined`,
which `Number`-coerces to NaN. -/
def argNum (args : List JsArg) (i : Nat) : JsNum :=
  match args.get? i with
  | some (.num n) => n
  | _ => .nan

/-- String factory parameter `i` (only its present-string case is
exercised by the claims). -/
def argStr (args : List JsArg) (i : Nat) : List Char :=
  match args.get? i with
  | some (.str s) => s
  | _ => []

/-- core.ts: `StyleFactory` — a factory may throw (only via `parseHex`),
modelled with `Except`. -/
def StyleFactory : Type := List JsArg → Except (List Char) Style

/-- core.ts: the `rgb` dynamic factory. -/
def rgbFactory : StyleFactory := fun args =>
  .ok (truecolor 38 (argNum args 0) (argNum args 1) (argNum args 2))

/-- core.ts: the `bgRgb` dynamic factory. -/
def bgRgbFactory : StyleFactory := fun args =>
  .ok (truecolor 48 (argNum args 0) (argNum args 1) (argNum args 2))

/-- core.ts: the `hex` dynamic factory — `parseHex` then `truecolor(38)`;
a `parseHex` error propagates uncaught. -/
def hexFactory : StyleFactory := fun args =>
  match parseHex (argStr args 0) with
  | .error e => .error e
  | .ok (r, g, b) => .ok (truecolor 38 (.num r) (.num g) (.num b))

/-- core.ts: the `bgHex` dynamic factory. -/
def bgHexFactory : StyleFactory := fun args =>
  match parseHex (argStr args 0) with
  | .error e => .error e
  | .ok (r, g, b) => .ok (truecolor 48 (.num r) (.num g) (.num b))

/-- A JavaScript `Record` modelled as a lookup function; `insertRec`
is own-property assignment (a later assignment to the same key wins). -/
def insertRec {α : Type} (m : String → Option α) (k : String) (v : α) :
    String → Option α :=
  fun n => if n = k then some v else m n

/-- The always-empty record. -/
def emptyRec {α : Type} : String → Option α := fun _ => none

/-- core.ts: `type Registry = { styles; dynamics }`. -/
structure Registry where
  styles : String → Option Style
  dynamics : String → Option StyleFactory

/-- core.ts: `modifierCodes` — the built-in modifier styles. -/
def modifierCodes : List (String × Style) :=
  [("reset", ⟨code 0, code 0⟩),
   ("bold", ⟨code 1, code 22⟩),
   ("dim", ⟨code 2, code 22⟩),
   ("italic", ⟨code 3, code 23⟩),
   ("underline", ⟨code 4, code 24⟩),
   ("inverse", ⟨code 7, code 27⟩),
   ("hidden", ⟨code 8, code 28⟩),
   ("strikethrough", ⟨code 9, code 29⟩)]

/-- createDefaultRegistry: the per-color entries produced by the
`BASE_COLORS.forEach` loop (foreground, bright, background, bright
background for each base color, in assignment order). -/
def colorEntries : List (String × Style) :=
  BASE_COLORS.enum.flatMap (fun p =>
    [(p.2, ⟨code (FG_BASE + p.1), FG_CLOSE⟩),
     (p.2 ++ "Bright", ⟨code (FG_BRIGHT_BASE + p.1), FG_CLOSE⟩),
     ("bg" ++ capitalize p.2, ⟨code (BG_BASE + p.1), BG_CLOSE⟩),
     ("bg" ++ capitalize p.2 ++ "Bright", ⟨code (BG_BRIGHT_BASE + p.1), BG_CLOSE⟩)])

/-- createDefaultRegistry: the `gray`/`grey` (and background) aliases
assigned after the color loop. -/
def grayEntries : List (String × Style) :=
  [("gray", ⟨code FG_BRIGHT_BASE, FG_CLOSE⟩),
   ("grey", ⟨code FG_BRIGHT_BASE, FG_CLOSE⟩),
   ("bgGray", ⟨code BG_BRIGHT_BASE, BG_CLOSE⟩),
   ("bgGrey", ⟨code BG_BRIGHT_BASE, BG_CLOSE⟩)]

/-- core.ts: `createDefaultRegistry()` — modifiers, colors and aliases
assigned in program order into `styles`, and the four truecolor
factories into `dynamics`. -/
def createDefaultRegistry : Registry :=
  { styles :=
      (modifierCodes ++ colorEntries ++ grayEntries).foldl
        (fun m kv => insertRec m kv.1 kv.2) emptyRec,
    dynamics :=
      insertRec (insertRec (insertRec (insertRec emptyRec
        "rgb" rgbFactory) "bgRgb" bgRgbFactory) "hex" hexFactory)
        "bgHex" bgHexFactory }

/-- A property key of the proxy `get` trap: a string, or the
`Symbol.toPrimitive` symbol (the only symbol the trap distinguishes). -/
inductive PropKey where
  | str (s : String)
  | symToPrimitive

/-- What a proxy property access evaluates to: one of the three bound
plugin operations, a new chained builder (carrying its accumulated
style list), the argument-taking wrapper of a dynamic factory, the
primitive-coercion function (carrying the string it returns), or
`undefined`. -/
inductive GetResult where
  | pluginRegisterStyle
  | pluginRegisterDynamicStyle
  | pluginExtend
  | chained (styles : List Style)
  | dynamic (f : StyleFactory)
  | toPrim (rendered : List Char)
  | undef

/-- core.ts: the proxy `get` trap — the three plugin names first, then
the registry's static styles, then its dynamic factories, then
`Symbol.toPrimitive`, else `undefined`. -/
def get (reg : Registry) (styles : List Style) : PropKey → GetResult
  | .str p =>
    if p = "registerStyle" then .pluginRegisterStyle
    else if p = "registerDynamicStyle" then .pluginRegisterDynamicStyle
    else if p = "extend" then .pluginExtend
    else
      match reg.styles p with
      | some st => .chained (styles ++ [st])
      | none =>
        match reg.dynamics p with
        | some f => .dynamic f
        | none => .undef
  | .symToPrimitive => .toPrim (applyStyles [] styles)

/-- core.ts: the bound `registerStyle(name, open, close)` mutating the
shared registry. -/
def registerStyle (reg : Registry) (name : String) (o c : List Char) : Registry :=
  { reg with styles := insertRec reg.styles name ⟨o, c⟩ }

/-- core.ts: the bound `registerDynamicStyle(name, factory)`. -/
def registerDynamicStyle (reg : Registry) (name : String) (f : StyleFactory) : Registry :=
  { reg with dynamics := insertRec reg.dynamics name f }

/-- core.ts: the bound `extend(defs)` — each callable value goes to
`dynamics`, each other value to `styles`, in entry order. -/
def extendOp (reg : Registry) (defs : List (String × (Style ⊕ StyleFactory))) : Registry :=
  defs.foldl
    (fun r kv =>
      match kv.2 with
      | .inl st => { r with styles := insertRec r.styles kv.1 st }
      | .inr f => { r with dynamics := insertRec r.dynamics kv.1 f })
    reg

/-- The `Symbol.toPrimitive` coercion result of a builder:
`applyStyles("", styles)`. -/
def toPrimitive (styles : List Style) : List Char := applyStyles [] styles

/-- The live `__styles` arrays of all builders created so far; a
builder value is an index into this heap (JavaScript array identity). -/
structure StyleHeap where
  arrays : List (List Style)
  deriving DecidableEq

/-- A style-resolving property access on builder `b`: the spread
`[...styles, st]` allocates a fresh array (never touching the parent's),
and `create` wraps it in a new builder.  Returns the new heap and the
new builder. -/
def chainAccess (h : StyleHeap) (b : Nat) (st : Style) : StyleHeap × Nat :=
  (⟨h.arrays ++ [(h.arrays.getD b []) ++ [st]]⟩, h.arrays.length)

/-- The built-in `bold` style, `{ open: code(1), close: code(22) }`. -/
def boldStyle : Style := ⟨code 1, code 22⟩

/-- The built-in `italic` style, `{ open: code(3), close: code(23) }`. -/
def italicStyle : Style := ⟨code 3, code 23⟩

/-- A concrete style pair used to exercise chain order. -/
def sA : Style := ⟨"A(".data, ")A".data⟩

/-- A second concrete style pair used to exercise chain order. -/
def sB : Style := ⟨"B(".data, ")B".data⟩

/-- A style pair whose close sequence (`"xy"`) overlaps its open
sequence (`"zx"`): inserting the open right after a replaced close
creates a fresh `"xy"` occurrence. -/
def sZX : Style := ⟨"zx".data, "xy".data⟩

/-- A style pair whose open sequence is the ECMA-262 substitution
sequence dollar-ampersand: the replacement string built from it is not
taken literally by `String.prototype.replace`. -/
def sDollar : Style := ⟨"$&".data, "x".data⟩

/-- A one-builder heap: the root's `__styles` array holds `bold`. -/
def heap0 : StyleHeap := ⟨[[boldStyle]]⟩


/-! ### Helper lemmas -/

theorem takeEqToPrefix {pat s : List Char} (h : s.take pat.length = pat) :
    pat <+: s := by
  have := List.take_append_drop pat.length s
  rw [h] at this
  exact ⟨s.drop pat.length, this⟩

theorem prefixToSeg {l₁ l₂ : List Char} (h : l₁ <+: l₂) : l₁ <:+: l₂ := by
  obtain ⟨t, ht⟩ := h
  exact ⟨[], t, by simpa using ht⟩

theorem segCons {l₁ l₂ : List Char} {c : Char} (h : l₁ <:+: l₂) :
    l₁ <:+: c :: l₂ := by
  obtain ⟨u, v, huv⟩ := h
  exact ⟨c :: u, v, by simp [huv]⟩

theorem nilSeg (l : List Char) : [] <:+: l := ⟨[], l, by simp⟩

theorem takeAppendLeft {α : Type} (i : Nat) :
    ∀ l₁ l₂ : List α, i ≤ l₁.length → (l₁ ++ l₂).take i = l₁.take i := by
  induction i with
  | zero => intro l₁ l₂ _; simp
  | succ n ih =>
    intro l₁ l₂ h
    cases l₁ with
    | nil => simp at h
    | cons a l =>
      simp only [List.cons_append, List.take_succ_cons]
      rw [ih l l₂ (by simpa using h)]

theorem getD_append_left {α : Type} (l l₂ : List α) (d : α) (n : Nat)
    (hn : n < l.length) : (l ++ l₂).getD n d = l.getD n d := by
  simp [List.getD, List.getElem?_append_left hn]

theorem getD_concat_self {α : Type} (l : List α) (d x : α) :
    (l ++ [x]).getD l.length d = x := by
  simp [List.getD, List.getElem?_concat_length]

theorem jsSubst_no_dollar :
    ∀ {rep : List Char}, '$' ∉ rep →
      ∀ m b a : List Char, jsSubst m b a rep = rep := by
  intro rep
  induction rep with
  | nil => intro _ m b a; rfl
  | cons c rest ih =>
    intro h m b a
    have hc : ¬ c = '$' := by
      intro he
      subst he
      exact h (List.mem_cons_self _ _)
    cases rest with
    | nil => rfl
    | cons c₂ rs =>
      have h2 : '$' ∉ c₂ :: rs := fun hm => h (List.mem_cons_of_mem c hm)
      simp only [jsSubst, if_neg hc]
      rw [ih h2]

theorem replaceGoJs_no_occ (orig : List Char) {pat : List Char} (rep : List Char) :
    ∀ (n i : Nat) (s : List Char), s.length ≤ n → ¬ pat <:+: s →
      replaceGoJs orig pat rep n i s = s := by
  intro n
  induction n with
  | zero =>
    intro i s hs _
    have hnil : s = [] := List.eq_nil_of_length_eq_zero (Nat.le_zero.mp hs)
    subst hnil; rfl
  | succ n ih =>
    intro i s hs hocc
    cases s with
    | nil => rfl
    | cons c cs =>
      have hne : ¬ (c :: cs).take pat.length = pat := fun h =>
        hocc (prefixToSeg (takeEqToPrefix h))
      have hcs : replaceGoJs orig pat rep n (i + 1) cs = cs :=
        ih (i + 1) cs (by simpa using hs) (fun h => hocc (segCons h))
      simp only [replaceGoJs, if_neg hne, hcs]

theorem replaceGoJs_eq_replaceGo (orig : List Char) {pat rep : List Char}
    (hd : '$' ∉ rep) :
    ∀ (n i : Nat) (s : List Char),
      replaceGoJs orig pat rep n i s = replaceGo pat rep n s := by
  intro n
  induction n with
  | zero => intro i s; cases s <;> rfl
  | succ n ih =>
    intro i s
    cases s with
    | nil => rfl
    | cons c cs =>
      by_cases h : (c :: cs).take pat.length = pat
      · simp only [replaceGoJs, replaceGo, if_pos h, jsSubst_no_dollar hd, ih]
      · simp only [replaceGoJs, replaceGo, if_neg h, ih]

theorem splitGo_ne_nil (pat : List Char) :
    ∀ (n : Nat) (s : List Char), splitGo pat n s ≠ [] := by
  intro n s
  cases s with
  | nil => cases n <;> simp [splitGo]
  | cons c cs =>
    cases n with
    | zero => simp [splitGo]
    | succ n =>
      by_cases h : (c :: cs).take pat.length = pat
      · simp [splitGo, h]
      · simp only [splitGo, if_neg h]
        cases hsp : splitGo pat n cs with
        | nil => simp
        | cons b bs => simp

theorem joinWith_splitGo {pat : List Char} (hp : pat ≠ []) :
    ∀ (n : Nat) (s : List Char), s.length ≤ n →
      joinWith pat (splitGo pat n s) = s := by
  intro n
  induction n with
  | zero =>
    intro s hs
    have hnil : s = [] := List.eq_nil_of_length_eq_zero (Nat.le_zero.mp hs)
    subst hnil; rfl
  | succ n ih =>
    intro s hs
    cases s with
    | nil => rfl
    | cons c cs =>
      have hplen : 1 ≤ pat.length := by
        cases pat with
        | nil => exact absurd rfl hp
        | cons p ps => simp
      by_cases h : (c :: cs).take pat.length = pat
      · have hlen : ((c :: cs).drop pat.length).length ≤ n := by
          simp only [List.length_drop, List.length_cons]
          have hcs : cs.length + 1 ≤ n + 1 := by simpa using hs
          omega
        have hrec := ih ((c :: cs).drop pat.length) hlen
        simp only [splitGo, if_pos h]
        cases hsp : splitGo pat n ((c :: cs).drop pat.length) with
        | nil => exact absurd hsp (splitGo_ne_nil pat n _)
        | cons b bs =>
          rw [hsp] at hrec
          calc joinWith pat ([] :: b :: bs)
              = [] ++ pat ++ joinWith pat (b :: bs) := rfl
            _ = pat ++ (c :: cs).drop pat.length := by rw [hrec]; simp
            _ = (c :: cs).take pat.length ++ (c :: cs).drop pat.length := by
                rw [h]
            _ = c :: cs := List.take_append_drop _ _
      · have hlen : cs.length ≤ n := by simpa using hs
        have hrec := ih cs hlen
        simp only [splitGo, if_neg h]
        cases hsp : splitGo pat n cs with
        | nil => exact absurd hsp (splitGo_ne_nil pat n cs)
        | cons b bs =>
          rw [hsp] at hrec
          cases bs with
          | nil =>
            have hb : b = cs := hrec
            subst hb; rfl
          | cons b₂ bs₂ =>
            calc joinWith pat ((c :: b) :: b₂ :: bs₂)
                = (c :: b) ++ pat ++ joinWith pat (b₂ :: bs₂) := rfl
              _ = c :: (b ++ pat ++ joinWith pat (b₂ :: bs₂)) := by simp
              _ = c :: cs := by rw [← hrec]; rfl

theorem replaceGo_eq_joinWith {pat : List Char} (rep : List Char) (hp : pat ≠ []) :
    ∀ (n : Nat) (s : List Char), s.length ≤ n →
      replaceGo pat rep n s = joinWith rep (splitGo pat n s) := by
  intro n
  induction n with
  | zero =>
    intro s hs
    have hnil : s = [] := List.eq_nil_of_length_eq_zero (Nat.le_zero.mp hs)
    subst hnil; rfl
  | succ n ih =>
    intro s hs
    cases s with
    | nil => rfl
    | cons c cs =>
      have hplen : 1 ≤ pat.length := by
        cases pat with
        | nil => exact absurd rfl hp
        | cons p ps => simp
      by_cases h : (c :: cs).take pat.length = pat
      · have hlen : ((c :: cs).drop pat.length).length ≤ n := by
          simp only [List.length_drop, List.length_cons]
          have hcs : cs.length + 1 ≤ n + 1 := by simpa using hs
          omega
        have hrec := ih ((c :: cs).drop pat.length) hlen
        simp only [replaceGo, splitGo, if_pos h]
        cases hsp : splitGo pat n ((c :: cs).drop pat.length) with
        | nil => exact absurd hsp (splitGo_ne_nil pat n _)
        | cons b bs =>
          rw [hsp] at hrec
          rw [hrec]
          rfl
      · have hlen : cs.length ≤ n := by simpa using hs
        have hrec := ih cs hlen
        simp only [replaceGo, splitGo, if_neg h]
        cases hsp : splitGo pat n cs with
        | nil => exact absurd hsp (splitGo_ne_nil pat n cs)
        | cons b bs =>
          rw [hsp] at hrec
          rw [hrec]
          cases bs with
          | nil => rfl
          | cons b₂ bs₂ => simp [joinWith]

theorem applyStyles_foldl {t : List Char} (ht : t ≠ []) (ss : List Style) :
    applyStyles t ss = ss.foldl applyOne t := by
  cases ss with
  | nil => simp [applyStyles]
  | cons s ss => simp [applyStyles, ht]

theorem applyOne_shape (s : Style) (out : List Char)
    (hocc : ¬ s.close <:+: out) :
    applyOne out s = s.«open» ++ out ++ s.close := by
  have hc : s.close ≠ [] := fun h => hocc (h ▸ nilSeg out)
  unfold applyOne
  rw [replaceAll, if_neg hc,
    replaceGoJs_no_occ out (s.close ++ s.«open») out.length 0 out le_rfl hocc]

theorem foldl_applyOne_shape (t : List Char) :
    ∀ ss : List Style,
      (∀ i (hi : i < ss.length),
        ¬ (ss.get ⟨i, hi⟩).close <:+: styledShape t (ss.take i)) →
      ss.foldl applyOne t = styledShape t ss := by
  intro ss
  induction ss using List.reverseRecOn with
  | nil => intro _; simp [styledShape]
  | append_singleton ss s ih =>
    intro hcl
    have hind : ∀ i (hi : i < ss.length),
        ¬ (ss.get ⟨i, hi⟩).close <:+: styledShape t (ss.take i) := by
      intro i hi
      have hi' : i < (ss ++ [s]).length := by simp; omega
      have h1 : (ss ++ [s]).get ⟨i, hi'⟩ = ss.get ⟨i, hi⟩ := by
        simp [List.get_eq_getElem, List.getElem_append_left hi]
      have h2 : (ss ++ [s]).take i = ss.take i :=
        takeAppendLeft i ss [s] (Nat.le_of_lt hi)
      have := hcl i hi'
      rw [h1, h2] at this
      exact this
    have hlast : ¬ s.close <:+: styledShape t ss := by
      have hl : ss.length < (ss ++ [s]).length := by simp
      have := hcl ss.length hl
      have h1 : (ss ++ [s]).get ⟨ss.length, hl⟩ = s := by
        simp [List.get_eq_getElem]
      have h2 : (ss ++ [s]).take ss.length = ss := List.take_left ss [s]
      rw [h1, h2] at this
      exact this
    rw [List.foldl_concat, ih hind, applyOne_shape s _ hlast]
    simp [styledShape, List.append_assoc]

/-! ### Claim theorems -/

/-- Claim C1, counterexample: chaining the two distinct styles `sA` then
`sB` on the text `"x"` renders `"B(A(x)A)B"`: the open of the
first-chained style `sA` does **not** precede the open of `sB`, and the
first-chained style is not the outermost wrapper (the output does not
begin with `sA`'s open sequence). -/
theorem applyStyles_chainOrder_cex :
    applyStyles "x".data [sA, sB] = "B(A(x)A)B".data ∧
    (applyStyles "x".data [sA, sB]).take sA.«open».length ≠ sA.«open» := by
  decide

/-- Claim C1, amended: for a non-empty text and a chain of styles none
of whose close sequences occurs in the output accumulated before it is
applied, rendering produces the opens in **reverse** chain order, then
the text, then the closes in chain order — the **last**-chained style is
the outermost wrapper, and for each `i < N` the open of style `i + 1`
precedes the open of style `i` while the closes appear in the reverse
(that is, chain) order. -/
theorem applyStyles_chainOrder (t : List Char) (ss : List Style) (ht : t ≠ [])
    (hcl : ∀ i (hi : i < ss.length),
      ¬ (ss.get ⟨i, hi⟩).close <:+: styledShape t (ss.take i)) :
    applyStyles t ss = styledShape t ss := by
  rw [applyStyles_foldl ht]
  exact foldl_applyOne_shape t ss hcl

/-- Claim C1, witness: the amended theorem applied to the chain
`[sA, sB]` and the text `"x"`. -/
theorem applyStyles_chainOrder_wit :
    (("x".data : List Char) ≠ [] ∧
      (∀ i (hi : i < ([sA, sB] : List Style).length),
        ¬ (([sA, sB] : List Style).get ⟨i, hi⟩).close <:+:
          styledShape "x".data (([sA, sB] : List Style).take i))) ∧
    applyStyles "x".data [sA, sB] = styledShape "x".data [sA, sB] :=
  ⟨⟨by decide, by decide⟩,
    applyStyles_chainOrder "x".data [sA, sB] (by decide) (by decide)⟩

/-- Claim C2, counterexample: at the empty text, applying a style does
not wrap at all (the empty text is returned unchanged); for the style
`sZX` (close `"xy"`, open `"zx"`) on the text `"xyy"`, the middle left
after removing the outermost wrapper contains an occurrence of the
close sequence with no later occurrence of the open sequence — the
inserted open `"zx"` followed by the remaining `"y"` creates a fresh
`"xy"` occurrence at the very end of the middle; and for the style
`sDollar` (open `"$&"`, close `"x"`) on `"ax"`, the dollar-ampersand in
the replacement string substitutes the matched close instead of being
inserted literally, so the output is `"$&axxx"` and the replaced
occurrence is *not* followed by the open sequence. -/
theorem applyStyles_reopen_cex :
    (applyStyles [] [sZX] = [] ∧
      applyStyles [] [sZX] ≠
        sZX.«open» ++ replaceAll sZX.close (sZX.close ++ sZX.«open») [] ++ sZX.close) ∧
    (applyStyles "xyy".data [sZX] = "zxxyzxyxy".data ∧
      ¬ closesReopened sZX.close sZX.«open»
        (((applyStyles "xyy".data [sZX]).drop sZX.«open».length).take
          ((applyStyles "xyy".data [sZX]).length - sZX.«open».length - sZX.close.length))) ∧
    applyStyles "ax".data [sDollar] = "$&axxx".data ∧
    applyStyles "ax".data [sDollar] ≠
      sDollar.«open» ++
        joinWith (sDollar.close ++ sDollar.«open»)
          (splitScan sDollar.close "ax".data) ++ sDollar.close := by
  decide

/-- Claim C2, amended: for every style pair `s` with a non-empty close
sequence, whose close and open contain no dollar sign (so the
replacement string `s.close + s.open` is taken literally rather than
`$`-substituted), and every non-empty text `t`, applying `[s]` replaces
each occurrence of `s.close` found by the left-to-right non-overlapping
scan of `t` with `s.close ++ s.open` and wraps the result in
`s.open … s.close`: writing `B` for the scan's split of `t` on
`s.close` (so `t` is `B` joined with `s.close`), the output is
`s.open ++ (B joined with s.close ++ s.open) ++ s.close`, every scanned
occurrence thus being immediately followed by `s.open`.  (Occurrences of
`s.close` newly created by the inserted open are not subject to this;
the empty text is returned unchanged and unwrapped.) -/
theorem applyStyles_reopen (s : Style) (t : List Char) (ht : t ≠ [])
    (hc : s.close ≠ []) (hd : '$' ∉ s.close ++ s.«open») :
    applyStyles t [s] =
      s.«open» ++ joinWith (s.close ++ s.«open») (splitScan s.close t) ++ s.close ∧
    joinWith s.close (splitScan s.close t) = t := by
  constructor
  · rw [applyStyles_foldl ht]
    simp only [List.foldl_cons, List.foldl_nil]
    unfold applyOne
    rw [replaceAll, if_neg hc, splitScan, if_neg hc,
      replaceGoJs_eq_replaceGo t hd t.length 0 t,
      replaceGo_eq_joinWith (s.close ++ s.«open») hc t.length t le_rfl]
  · rw [splitScan, if_neg hc]
    exact joinWith_splitGo hc t.length t le_rfl

/-- Claim C2, witness: the amended theorem applied to the `bold` style
(dollar-free ANSI sequences) and a text already containing one
occurrence of `bold`'s close sequence. -/
theorem applyStyles_reopen_wit :
    ((("a".data ++ code 22 ++ "b".data : List Char) ≠ [] ∧
        boldStyle.close ≠ [] ∧
        '$' ∉ boldStyle.close ++ boldStyle.«open») ∧
      applyStyles ("a".data ++ code 22 ++ "b".data) [boldStyle] =
        boldStyle.«open» ++
          joinWith (boldStyle.close ++ boldStyle.«open»)
            (splitScan boldStyle.close ("a".data ++ code 22 ++ "b".data)) ++
          boldStyle.close ∧
      joinWith boldStyle.close
          (splitScan boldStyle.close ("a".data ++ code 22 ++ "b".data)) =
        "a".data ++ code 22 ++ "b".data) :=
  ⟨⟨by decide, by decide, by decide⟩,
    applyStyles_reopen boldStyle ("a".data ++ code 22 ++ "b".data)
      (by decide) (by decide) (by decide)⟩

/-- Claim C3, counterexample: coercing a builder that accumulated the
single `bold` style renders the empty string, not the concatenation of
`bold`'s open and close sequences. -/
theorem toPrimitive_cex :
    toPrimitive [boldStyle] = [] ∧
    toPrimitive [boldStyle] ≠ boldStyle.«open» ++ boldStyle.close := by
  decide

/-- Claim C3, amended: coercing a builder with a non-empty accumulated
style sequence to a primitive string renders the empty argument text
through the accumulated styles, and because `applyStyles` returns an
empty text unchanged, the coercion yields the empty string — no open or
close sequences are emitted. -/
theorem toPrimitive_empty (ss : List Style) (h : ss ≠ []) :
    toPrimitive ss = [] := by
  simp [toPrimitive, applyStyles]

/-- Claim C3, witness: the amended theorem applied to the one-style
sequence `[bold]`. -/
theorem toPrimitive_empty_wit :
    ([boldStyle] : List Style) ≠ [] ∧ toPrimitive [boldStyle] = [] :=
  ⟨by decide, toPrimitive_empty [boldStyle] (by decide)⟩

/-- Claim C6, counterexample: for the `bold` pair and the empty text
(which contains no occurrence of `bold`'s close sequence), composing
yields the empty string, which is not `open ++ "" ++ close` — the open
prefix and close suffix are simply absent, so stripping them cannot
return the original text. -/
theorem applyStyles_roundTrip_cex :
    (¬ boldStyle.close <:+: ([] : List Char)) ∧
    applyStyles [] [boldStyle] = [] ∧
    applyStyles [] [boldStyle] ≠ boldStyle.«open» ++ [] ++ boldStyle.close := by
  decide

/-- Claim C6, amended: for every style pair `p` and every **non-empty**
text `t` containing no occurrence of `p.close`, applying the single
style `p` yields exactly `p.open ++ t ++ p.close`, so stripping the
open prefix and the close suffix returns exactly `t`. -/
theorem applyStyles_roundTrip (p : Style) (t : List Char) (ht : t ≠ [])
    (hocc : ¬ p.close <:+: t) :
    applyStyles t [p] = p.«open» ++ t ++ p.close := by
  rw [applyStyles_foldl ht]
  simp only [List.foldl_cons, List.foldl_nil]
  exact applyOne_shape p t hocc

/-- Claim C6, witness: the amended round trip at the `bold` pair and
the text `"hi"`. -/
theorem applyStyles_roundTrip_wit :
    (("hi".data : List Char) ≠ [] ∧ ¬ boldStyle.close <:+: "hi".data) ∧
    applyStyles "hi".data [boldStyle] =
      boldStyle.«open» ++ "hi".data ++ boldStyle.close :=
  ⟨⟨by decide, by decide⟩,
    applyStyles_roundTrip boldStyle "hi".data (by decide) (by decide)⟩

/-- Claim C9: rendering any text through an empty style list returns it
unchanged, and rendering the empty text through any style list returns
the empty text unchanged — the guard of `applyStyles` emits no escape
sequences in either case. -/
theorem applyStyles_empty (t : List Char) (ss : List Style) :
    applyStyles t [] = t ∧ applyStyles [] ss = [] := by
  constructor <;> simp [applyStyles]

/-- Claim C10: for every registry state (in particular after any
registration under these names) and every accumulated style list,
property access under `"registerStyle"`, `"registerDynamicStyle"` and
`"extend"` resolves to the corresponding plugin operation — the three
names are checked before the static and dynamic style tables, so they
can never resolve to a styled builder. -/
theorem plugin_shadow (reg : Registry) (ss : List Style) :
    get reg ss (.str "registerStyle") = .pluginRegisterStyle ∧
    get reg ss (.str "registerDynamicStyle") = .pluginRegisterDynamicStyle ∧
    get reg ss (.str "extend") = .pluginExtend :=
  ⟨rfl, rfl, rfl⟩

theorem dup_length (l : List Char) :
    ((l.map (fun c => [c, c])).flatten).length = 2 * l.length := by
  induction l with
  | nil => rfl
  | cons c cs ih => simp only [List.map_cons, List.flatten_cons,
      List.length_append, List.length_cons, List.length_nil, ih]; omega

theorem dup_all (p : Char → Bool) (l : List Char) :
    ((l.map (fun c => [c, c])).flatten).all p = l.all p := by
  induction l with
  | nil => rfl
  | cons c cs ih =>
    simp only [List.map_cons, List.flatten_cons, List.all_append,
      List.all_cons, List.all_nil, ih]
    cases p c <;> simp

theorem parseHex_valid_ok {hex : List Char} (hv : validHexInput hex) :
    ∃ v, parseHex hex = .ok v := by
  obtain ⟨hlen, hall⟩ := hv
  have hcond : (dupIfShort (stripHash (trim hex))).length = 6 ∧
      (dupIfShort (stripHash (trim hex))).all isHexDigit = true := by
    cases hlen with
    | inl h3 =>
      rw [dupIfShort, if_pos h3]
      exact ⟨by rw [dup_length, h3], by rw [dup_all]; exact hall⟩
    | inr h6 =>
      rw [dupIfShort, if_neg (by simp [h6])]
      exact ⟨h6, hall⟩
  rw [parseHex, parseHexDigits, if_pos hcond]
  exact ⟨_, rfl⟩

theorem parseHex_invalid_err {hex : List Char} (hv : ¬ validHexInput hex) :
    parseHex hex = .error hex := by
  rw [parseHex, parseHexDigits, if_neg ?_]
  intro hcond
  apply hv
  by_cases h3 : (stripHash (trim hex)).length = 3
  · refine ⟨Or.inl h3, ?_⟩
    have hc2 := hcond.2
    rw [dupIfShort, if_pos h3, dup_all] at hc2
    exact hc2
  · have hc := hcond
    rw [dupIfShort, if_neg h3] at hc
    exact ⟨Or.inr hc.1, hc.2⟩

/-- Claim C4, counterexample: the input `" fff"` contains a character
that is not a hexadecimal digit and, after stripping the optional `#`
marker, has length 4 (neither 3 nor 6); per the claim `parseHex` must
raise `InvalidColorFormat` on it, yet the code trims whitespace first
and successfully returns `(255, 255, 255)`. -/
theorem parseHex_cex :
    parseHex (' ' :: "fff".data) = .ok (255, 255, 255) ∧
    (stripHash (' ' :: "fff".data)).length ≠ 3 ∧
    (stripHash (' ' :: "fff".data)).length ≠ 6 := by
  decide

/-- Claim C4, amended: `parseHex` first trims surrounding whitespace,
then accepts an optional leading `#` followed by exactly 3 or 6
case-insensitive hexadecimal digits (a 3-digit form duplicating each
digit); every input invalid after trimming produces an error carrying
the original offending input, `parseHex "#fff"` and `parseHex "#ffffff"`
both yield `(255, 255, 255)`, `"12g"` and `"1234"` each error, and an
error from `parseHex` propagates uncaught out of the `hex` dynamic
factory. -/
theorem parseHex_spec :
    (∀ hex : List Char,
      (validHexInput hex → ∃ v, parseHex hex = .ok v) ∧
      (¬ validHexInput hex → parseHex hex = .error hex)) ∧
    parseHex "#fff".data = .ok (255, 255, 255) ∧
    parseHex "#ffffff".data = .ok (255, 255, 255) ∧
    parseHex "12g".data = .error "12g".data ∧
    parseHex "1234".data = .error "1234".data ∧
    (∀ (args : List JsArg) (e : List Char),
      parseHex (argStr args 0) = .error e → hexFactory args = .error e) := by
  refine ⟨fun hex => ⟨fun hv => parseHex_valid_ok hv,
    fun hv => parseHex_invalid_err hv⟩,
    by decide, by decide, by decide, by decide, fun args e h => ?_⟩
  simp only [hexFactory, h]

/-- Claim C4, witness: the characterization applied at the concrete
inputs `" #AbC "` (valid after trimming) and `"zz"` (invalid). -/
theorem parseHex_spec_wit :
    (validHexInput (' ' :: '#' :: 'A' :: 'b' :: 'C' :: [' ']) ∧
      ∃ v, parseHex (' ' :: '#' :: 'A' :: 'b' :: 'C' :: [' ']) = .ok v) ∧
    (¬ validHexInput "zz".data ∧ parseHex "zz".data = .error "zz".data) :=
  ⟨⟨by decide,
      (parseHex_spec.1 (' ' :: '#' :: 'A' :: 'b' :: 'C' :: [' '])).1 (by decide)⟩,
    ⟨by decide, (parseHex_spec.1 "zz".data).2 (by decide)⟩⟩

/-- Claim C5, counterexample: registering a static style under the name
`"extend"` and then accessing that name on a pre-existing chain yields
the plugin operation, not a builder extended with the registered pair —
the three plugin names shadow the registry. -/
theorem register_then_resolve_cex :
    get (registerStyle createDefaultRegistry "extend" "o".data "c".data) []
        (.str "extend") = .pluginExtend ∧
    get (registerStyle createDefaultRegistry "extend" "o".data "c".data) []
        (.str "extend") ≠ .chained [⟨"o".data, "c".data⟩] :=
  ⟨rfl, fun h => nomatch h⟩

/-- Claim C5, amended: for every registry state, chain and name **other
than the three plugin-operation names**, registering a static style
under that name and then accessing it on any previously created chain
resolves to a new builder whose sequence is the chain's sequence with
the newly registered pair appended — resolution consults the shared
registry at property-access time. -/
theorem register_then_resolve (reg : Registry) (ss : List Style)
    (name : String) (o c : List Char)
    (h1 : name ≠ "registerStyle") (h2 : name ≠ "registerDynamicStyle")
    (h3 : name ≠ "extend") :
    get (registerStyle reg name o c) ss (.str name) = .chained (ss ++ [⟨o, c⟩]) := by
  simp only [get, registerStyle, insertRec]
  rw [if_neg h1, if_neg h2, if_neg h3]
  simp

/-- Claim C5, witness: the amended theorem applied to the default
registry, the root chain and the fresh name `"frame"`. -/
theorem register_then_resolve_wit :
    get (registerStyle createDefaultRegistry "frame" "\x1B[51m".data "\x1B[54m".data)
        [] (.str "frame") = .chained [⟨"\x1B[51m".data, "\x1B[54m".data⟩] :=
  register_then_resolve createDefaultRegistry [] "frame" "\x1B[51m".data
    "\x1B[54m".data (by decide) (by decide) (by decide)

/-- Claim C7: `clamp255` maps NaN (and any non-numeric input, which
`Number(·)` coerces to NaN) and `-∞` to 0 and `+∞` to 255, clamps every
input into `[0, 255]`, floors finite fractional values before clamping,
and `truecolor` clamps each of its three channels independently into
the open sequence; in particular `rgb(-5, 300, 2.9)` produces the
channel values `(0, 255, 2)`. -/
theorem truecolor_clamp :
    clamp255 .nan = 0 ∧ clamp255 .negInf = 0 ∧ clamp255 .posInf = 255 ∧
    (∀ x : JsNum, 0 ≤ clamp255 x ∧ clamp255 x ≤ 255) ∧
    (∀ q : ℚ, clamp255 (.num q) = min 255 (max 0 q.floor)) ∧
    (∀ (base : Nat) (r g b : JsNum), (truecolor base r g b).«open» =
      ESC ++ (toString base).data ++ ";2;".data ++
        (toString (clamp255 r).toNat).data ++ [';'] ++
        (toString (clamp255 g).toNat).data ++ [';'] ++
        (toString (clamp255 b).toNat).data ++ ['m']) ∧
    clamp255 (.num (mkRat (-5) 1)) = 0 ∧
    clamp255 (.num (mkRat 300 1)) = 255 ∧
    clamp255 (.num (mkRat 29 10)) = 2 ∧
    truecolor 38 (.num (mkRat (-5) 1)) (.num (mkRat 300 1)) (.num (mkRat 29 10)) =
      ⟨"\x1B[38;2;0;255;2m".data, "\x1B[39m".data⟩ := by
  refine ⟨rfl, rfl, rfl, ?_, fun q => rfl, fun base r g b => rfl,
    by decide, by decide, by decide, by decide⟩
  intro x
  cases x with
  | nan => exact ⟨le_rfl, by decide⟩
  | posInf => exact ⟨by decide, le_rfl⟩
  | negInf => exact ⟨le_rfl, by decide⟩
  | num q =>
    exact ⟨le_min (by decide) (le_max_left 0 q.floor),
      min_le_left 255 (max 0 q.floor)⟩

/-- Claim C8: a property access that resolves a style name `name` to a
pair `st` on the builder `b` returns a **new** builder (a fresh array
index) whose accumulated sequence is the parent's sequence with `st`
appended, and the parent builder's own array is unchanged by the
access — `[...styles, st]` copies rather than mutates. -/
theorem builder_immutable (reg : Registry) (h : StyleHeap) (b : Nat)
    (name : String) (st : Style)
    (hb : b < h.arrays.length) (hres : reg.styles name = some st)
    (h1 : name ≠ "registerStyle") (h2 : name ≠ "registerDynamicStyle")
    (h3 : name ≠ "extend") :
    get reg (h.arrays.getD b []) (.str name) =
      .chained ((h.arrays.getD b []) ++ [st]) ∧
    (chainAccess h b st).1.arrays.getD b [] = h.arrays.getD b [] ∧
    (chainAccess h b st).1.arrays.getD (chainAccess h b st).2 [] =
      (h.arrays.getD b []) ++ [st] ∧
    (chainAccess h b st).2 ≠ b := by
  refine ⟨?_, ?_, ?_, ?_⟩
  · simp only [get]
    rw [if_neg h1, if_neg h2, if_neg h3, hres]
  · exact getD_append_left h.arrays _ [] b hb
  · exact getD_concat_self h.arrays [] _
  · exact fun he => absurd (he ▸ hb) (lt_irrefl b)

/-- Claim C8, witness: on a heap holding one builder with accumulated
sequence `[bold]`, resolving `"italic"` against the default registry. -/
theorem builder_immutable_wit :
    (0 < heap0.arrays.length ∧
      createDefaultRegistry.styles "italic" = some italicStyle) ∧
    (get createDefaultRegistry (heap0.arrays.getD 0 []) (.str "italic") =
        .chained ((heap0.arrays.getD 0 []) ++ [italicStyle]) ∧
      (chainAccess heap0 0 italicStyle).1.arrays.getD 0 [] = heap0.arrays.getD 0 [] ∧
      (chainAccess heap0 0 italicStyle).1.arrays.getD
          (chainAccess heap0 0 italicStyle).2 [] =
        (heap0.arrays.getD 0 []) ++ [italicStyle] ∧
      (chainAccess heap0 0 italicStyle).2 ≠ 0) :=
  ⟨⟨by decide, by decide⟩,
    builder_immutable createDefaultRegistry heap0 0 "italic" italicStyle
      (by decide) (by decide) (by decide) (by decide) (by decide)⟩

end Flu
